import Mathlib

/-!
Verification development for the agentic compliance-mapping pipeline.

The Python source is shallowly embedded: strings become `List Char`,
floats become exact rationals (`ℚ`), dict-shaped records become
structures or association lists, and external collaborators (database,
vector store, event bus, LLM) become explicit parameters.  `round(x, 3)`
is modelled by `pyRound3` (round half to even at the third decimal).
-/

namespace Compliance

/-- ASCII decimal digit, as matched by the source's regex class `\d` / `[0-9]`. -/
def isDigitC (c : Char) : Bool := '0' ≤ c && c ≤ '9'

/-- Whitespace as matched by Python's `\s` and stripped by `str.strip()`. -/
def isSpaceC (c : Char) : Bool :=
  c = ' ' || c = '\t' || c = '\n' || c = '\r' || c = '\x0b' || c = '\x0c'

/-- Python `str.strip()`: drop whitespace from both ends. -/
def stripC (l : List Char) : List Char :=
  ((l.dropWhile isSpaceC).reverse.dropWhile isSpaceC).reverse

def splitWSAux : List Char → List Char → List (List Char)
  | acc, [] => if acc.isEmpty then [] else [acc.reverse]
  | acc, c :: cs =>
    if isSpaceC c then
      if acc.isEmpty then splitWSAux [] cs else acc.reverse :: splitWSAux [] cs
    else splitWSAux (c :: acc) cs

/-- Python `str.split()` with no argument: split on whitespace runs. -/
def splitWS (l : List Char) : List (List Char) := splitWSAux [] l

/-- Round half to even to the nearest integer, as Python's builtin `round`. -/
def roundHalfEven (q : ℚ) : ℤ :=
  let f := ⌊q⌋
  let r := q - (f : ℚ)
  if r < 1/2 then f else if 1/2 < r then f + 1 else if f % 2 = 0 then f else f + 1

/-- Python `round(x, 3)` on exact rationals. -/
def pyRound3 (q : ℚ) : ℚ := (roundHalfEven (q * 1000) : ℚ) / 1000

/-- Python slice `text[a:b]` for natural indices. -/
def pySlice (s : List Char) (a b : ℕ) : List Char := (s.take b).drop a

/-- Lowercase a character list (Python `str.lower()`). -/
def lowerL (l : List Char) : List Char := l.map Char.toLower

/-- Insert into a Python-dict-like association list: replace in place if the
key exists, otherwise append (Python dicts keep insertion order). -/
def dictPut {α : Type} (d : List (String × α)) (k : String) (v : α) : List (String × α) :=
  match d with
  | [] => [(k, v)]
  | (k', v') :: rest => if k' = k then (k, v) :: rest else (k', v') :: dictPut rest k v

def dictFind? {α : Type} (d : List (String × α)) (k : String) : Option α :=
  match d with
  | [] => none
  | (k', v') :: rest => if k' = k then some v' else dictFind? rest k

/-! ## OCR normalizer: `document_ingestion/pdf_processor.py`

`PDFProcessor.process_textract_results` and its helpers `_process_page`,
`_process_line`, `_detect_tables`, `_detect_images`, `_lines_are_consecutive`,
`_extract_full_text`, translated block by block.  A Textract `Geometry`
bounding box is kept as an optional record (`none` models a missing/empty
`Geometry` dict). -/

structure BBox where
  top : ℚ
  height : ℚ
deriving DecidableEq, Repr

structure Relationship where
  relType : String
  ids : List String
deriving DecidableEq, Repr

structure TextractBlock where
  blockType : String
  id : String
  text : String
  confidence : ℚ
  page : ℕ
  geometry : Option BBox
  relationships : List Relationship
deriving DecidableEq, Repr

structure TextractResults where
  jobId : String
  blocks : List TextractBlock
deriving DecidableEq, Repr

structure WordInfo where
  text : String
  confidence : ℚ
  geometry : Option BBox
deriving DecidableEq, Repr

structure LineInfo where
  text : String
  confidence : ℚ
  geometry : Option BBox
  words : List WordInfo
  wordCount : ℕ
deriving DecidableEq, Repr

structure TableInfo where
  tableType : String
  lines : List LineInfo
  rowCount : ℕ
  confidence : ℚ
deriving DecidableEq, Repr

structure ImageInfo where
  imageType : String
  geometry : BBox
  confidence : ℚ
deriving DecidableEq, Repr

structure PageInfo where
  pageNumber : ℕ
  text : String
  lines : List LineInfo
  confidence : ℚ
  geometry : Option BBox
  tables : List TableInfo
  images : List ImageInfo
  wordCount : ℕ
  lineCount : ℕ
deriving DecidableEq, Repr

structure ExtractionStats where
  totalBlocks : ℕ
  pageBlocks : ℕ
  lineBlocks : ℕ
  wordBlocks : ℕ
deriving DecidableEq, Repr

structure ProcessedDocument where
  documentId : String
  pages : List PageInfo
  fullText : String
  confidence : ℚ
  totalPages : ℕ
  extractionStats : ExtractionStats
deriving DecidableEq, Repr

/-- Collect the ids of all `CHILD` relationships of a block. -/
def childIdsOf (b : TextractBlock) : List String :=
  b.relationships.foldl (fun acc r => if r.relType = "CHILD" then acc ++ r.ids else acc) []

/-- `PDFProcessor._process_line`. -/
def processLine (lineBlock : TextractBlock) (words : List (String × TextractBlock)) :
    LineInfo :=
  let wordIds := childIdsOf lineBlock
  let lineWords := wordIds.foldl (fun acc wid =>
    match dictFind? words wid with
    | some wb => acc ++ [{ text := wb.text, confidence := wb.confidence,
                           geometry := wb.geometry : WordInfo }]
    | none => acc) []
  { text := lineBlock.text, confidence := lineBlock.confidence,
    geometry := lineBlock.geometry, words := lineWords, wordCount := lineWords.length }

/-- Does the line text match `\t|\s{3,}|\|` (column separators)? -/
def hasColumnSeparator (s : List Char) : Bool :=
  s.contains '\t' || s.contains '|' || hasRun3 s
where
  hasRun3 : List Char → Bool
    | a :: b :: c :: rest =>
      (isSpaceC a && isSpaceC b && isSpaceC c) || hasRun3 (b :: c :: rest)
    | _ => false

/-- `PDFProcessor._lines_are_consecutive`: vertical gap below 5% of page height. -/
def linesAreConsecutive (l1 l2 : LineInfo) : Bool :=
  match l1.geometry, l2.geometry with
  | some g1, some g2 => |g2.top - (g1.top + g1.height)| < 1/20
  | _, _ => false

/-- Mean confidence of a group of table lines (Python `sum(...)/len(...)`). -/
def tableConfidence (ls : List LineInfo) : ℚ :=
  (ls.map (·.confidence)).sum / (ls.length : ℚ)

/-- `PDFProcessor._detect_tables`. -/
def detectTables (pageLines : List LineInfo) : List TableInfo :=
  let potential := pageLines.filter
    (fun l => hasColumnSeparator l.text.toList && decide (2 < (splitWS l.text.toList).length))
  if 2 ≤ potential.length then
    let step := potential.foldl (fun (acc : List TableInfo × List LineInfo) line =>
      match acc.2 with
      | [] => (acc.1, [line])
      | c :: cs =>
        let cur := c :: cs
        if linesAreConsecutive (cur.getLast (List.cons_ne_nil c cs)) line then
          (acc.1, cur ++ [line])
        else if 2 ≤ cur.length then
          (acc.1 ++ [{ tableType := "detected_table", lines := cur,
                       rowCount := cur.length, confidence := tableConfidence cur }], [line])
        else (acc.1, [line])) ([], [])
    if 2 ≤ step.2.length then
      step.1 ++ [{ tableType := "detected_table", lines := step.2,
                   rowCount := step.2.length, confidence := tableConfidence step.2 }]
    else step.1
  else []

/-- `PDFProcessor._detect_images`: placeholder keyed to page geometry. -/
def detectImages (pageBlock : TextractBlock) : List ImageInfo :=
  match pageBlock.geometry with
  | some g => [{ imageType := "potential_image_area", geometry := g, confidence := 1/2 }]
  | none => []

/-- `PDFProcessor._process_page`: line confidences of value 0 are skipped when
averaging, matching the `if line_info['confidence'] > 0` guard. -/
def processPage (pageBlock : TextractBlock) (lines words : List (String × TextractBlock)) :
    PageInfo :=
  let childIds := childIdsOf pageBlock
  let pageLines := childIds.foldl (fun acc lid =>
    match dictFind? lines lid with
    | some lb => acc ++ [processLine lb words]
    | none => acc) []
  let confSum : ℚ := (pageLines.filter (fun l => 0 < l.confidence)).foldl
    (fun s l => s + l.confidence) 0
  let confCount := (pageLines.filter (fun l => 0 < l.confidence)).length
  let pageConfidence : ℚ := if 0 < confCount then confSum / (confCount : ℚ) else 0
  let pageText := String.intercalate "\n"
    ((pageLines.filter (fun l => l.text ≠ "")).map (·.text))
  { pageNumber := pageBlock.page
    text := pageText
    lines := pageLines
    confidence := pyRound3 pageConfidence
    geometry := pageBlock.geometry
    tables := detectTables pageLines
    images := detectImages pageBlock
    wordCount := if pageText ≠ "" then (splitWS pageText.toList).length else 0
    lineCount := pageLines.length }

/-- `PDFProcessor._extract_full_text`. -/
def extractFullText (pages : List PageInfo) : String :=
  let parts := pages.foldl (fun acc p =>
    if p.text ≠ "" then acc ++ ["--- Page " ++ toString p.pageNumber ++ " ---", p.text, ""]
    else acc) []
  String.intercalate "\n" parts

/-- `PDFProcessor.process_textract_results`: pages with confidence 0 are skipped
when averaging, matching the `if page_info['confidence'] > 0` guard. -/
def processTextractResults (res : TextractResults) : ProcessedDocument :=
  let pages := res.blocks.foldl (fun acc b =>
    if b.blockType = "PAGE" then dictPut acc b.id b else acc) []
  let lines := res.blocks.foldl (fun acc b =>
    if b.blockType = "LINE" then dictPut acc b.id b else acc) []
  let words := res.blocks.foldl (fun acc b =>
    if b.blockType = "WORD" then dictPut acc b.id b else acc) []
  let processedPages := pages.foldl (fun acc pb => acc ++ [processPage pb.2 lines words]) []
  let overallSum : ℚ := (processedPages.filter (fun p => 0 < p.confidence)).foldl
    (fun s p => s + p.confidence) 0
  let overallCount := (processedPages.filter (fun p => 0 < p.confidence)).length
  let overall : ℚ := if 0 < overallCount then overallSum / (overallCount : ℚ) else 0
  { documentId := res.jobId
    pages := processedPages
    fullText := extractFullText processedPages
    confidence := pyRound3 overall
    totalPages := processedPages.length
    extractionStats :=
      { totalBlocks := res.blocks.length, pageBlocks := pages.length,
        lineBlocks := lines.length, wordBlocks := words.length } }

/-! ## Clause segmentation: `clause_extraction/langchain_processor.py`

`ClauseExtractionTool._extract_clauses_by_pattern`, pattern 1: Python
`re.findall(r'(\d+\.\s+[^0-9]+?)(?=\d+\.\s+|\Z)', text, re.DOTALL)`.
The matcher below implements exactly this regex's backtracking search:
greedy `\d+` then a literal `.`, greedy `\s+` backtracking down to one
space, then the lazy non-digit body `[^0-9]+?` extended one character at
a time until the lookahead (a following `\d+\.\s+` marker, or end of
input) succeeds; `findall` scans left to right and resumes after each
match. -/

/-- The lookahead `(?=\d+\.\s+|\Z)` at the suffix `s`. -/
def numLookahead (s : List Char) : Bool :=
  s.isEmpty ||
    (let ds := s.takeWhile isDigitC
     let r1 := s.dropWhile isDigitC
     !ds.isEmpty &&
       match r1 with
       | '.' :: r2 => !(r2.takeWhile isSpaceC).isEmpty
       | _ => false)

/-- Lazy `[^0-9]+?` followed by the lookahead: consume one non-digit character
at a time, checking the lookahead after each; returns the body and the
unconsumed suffix of the first success. -/
def numBodyScan (acc : List Char) : List Char → Option (List Char × List Char)
  | [] => none
  | c :: cs =>
    if isDigitC c then none
    else if numLookahead cs then some ((c :: acc).reverse, cs)
    else numBodyScan (c :: acc) cs

/-- Backtrack `\s+` from `t` consumed whitespace characters down to one. -/
def numTrySpaces (ds : List Char) (sp : List Char) (r3 : List Char) :
    ℕ → Option (List Char × List Char)
  | 0 => none
  | t + 1 =>
    match numBodyScan [] (sp.drop (t + 1) ++ r3) with
    | some (body, after) => some (ds ++ '.' :: sp.take (t + 1) ++ body, after)
    | none => numTrySpaces ds sp r3 t

/-- Attempt the numbered-clause pattern at the start of `s`; returns the
matched characters and the rest of the input. -/
def numAttempt (s : List Char) : Option (List Char × List Char) :=
  let ds := s.takeWhile isDigitC
  let r1 := s.dropWhile isDigitC
  if ds.isEmpty then none
  else
    match r1 with
    | '.' :: r2 =>
      let sp := r2.takeWhile isSpaceC
      let r3 := r2.dropWhile isSpaceC
      if sp.isEmpty then none else numTrySpaces ds sp r3 sp.length
    | _ => none

/-- `re.findall` scan for the numbered-clause pattern (fuelled; any fuel at
least `s.length` gives the regex-engine behaviour, see `numFindallF_fuel`). -/
def numFindallF : ℕ → List Char → List (List Char)
  | 0, _ => []
  | _, [] => []
  | fuel + 1, c :: cs =>
    match numAttempt (c :: cs) with
    | some (m, rest) => m :: numFindallF fuel rest
    | none => numFindallF fuel cs

def numFindall (s : List Char) : List (List Char) := numFindallF s.length s

/-- The numbered-pattern clause candidate texts: each `re.findall` match,
stripped, in order (`_extract_clauses_by_pattern`, pattern 1 loop). -/
def numberedClauseTexts (text : String) : List String :=
  (numFindall text.toList).map (fun m => String.mk (stripC m))

/-! ## Clause classification: `clause_extraction/clause_classifier.py`

The rule table of `ClauseClassifier._load_classification_rules` and the
scoring of `_apply_classification_rules` / `_determine_primary_classification`.
`re.search(pattern, text, re.IGNORECASE)` is modelled by a Brzozowski
derivative matcher over a small regex AST covering the constructs the
rule patterns use (`\s+`, `\d+`, `\d{4}`, `\.`, `.*`, case-insensitive
literals). -/

inductive RE where
  | emp : RE
  | eps : RE
  | cls (p : Char → Bool) : RE
  | seqr (a b : RE) : RE
  | alt (a b : RE) : RE
  | star (r : RE) : RE

def RE.nullable : RE → Bool
  | .emp => false
  | .eps => true
  | .cls _ => false
  | .seqr a b => a.nullable && b.nullable
  | .alt a b => a.nullable || b.nullable
  | .star _ => true

def RE.derivc : RE → Char → RE
  | .emp, _ => .emp
  | .eps, _ => .emp
  | .cls p, c => if p c then .eps else .emp
  | .seqr a b, c =>
    if a.nullable then .alt (.seqr (a.derivc c) b) (b.derivc c) else .seqr (a.derivc c) b
  | .alt a b, c => .alt (a.derivc c) (b.derivc c)
  | .star r, c => .seqr (r.derivc c) (.star r)

/-- Does some prefix of `s` match `r`? -/
def RE.matchesAtStart (r : RE) : List Char → Bool
  | [] => r.nullable
  | c :: cs => r.nullable || (r.derivc c).matchesAtStart cs

/-- `re.search`: does `r` match anywhere in `s`? -/
def reSearch (r : RE) : List Char → Bool
  | [] => r.matchesAtStart []
  | c :: cs => r.matchesAtStart (c :: cs) || reSearch r cs

/-- A case-insensitive literal character (patterns are lowercase; the source
searches with `re.IGNORECASE`). -/
def rChar (c : Char) : RE := .cls (fun x => x.toLower = c)

/-- A case-insensitive literal word. -/
def rWord (w : String) : RE := w.toList.foldr (fun c acc => .seqr (rChar c) acc) .eps

def seqAll (rs : List RE) : RE := rs.foldr .seqr .eps

def rePlus (r : RE) : RE := .seqr r (.star r)

/-- `\s+` -/
def rSpaces : RE := rePlus (.cls isSpaceC)

/-- `\d+` -/
def rDigits : RE := rePlus (.cls isDigitC)

/-- `\d{4}` -/
def rD4 : RE := seqAll [.cls isDigitC, .cls isDigitC, .cls isDigitC, .cls isDigitC]

/-- `\.` -/
def rDot : RE := .cls (fun x => x = '.')

/-- `.*` (no DOTALL: `.` does not match a newline). -/
def rDotStar : RE := .star (.cls (fun x => x ≠ '\n'))

structure ClassRule where
  name : String
  keywords : List String
  regulatoryPatterns : List RE
  weight : ℚ
  subtypes : List (String × List String)

/-- `ClauseClassifier._load_classification_rules`. -/
def classificationRules : List ClassRule :=
  [ { name := "safety_compliance"
      keywords :=
        [ "safety", "health", "whs", "work health and safety",
          "occupational health", "hazard", "risk assessment",
          "safety management system", "sms", "safety procedures",
          "personal protective equipment", "ppe", "safety training",
          "incident", "accident", "injury", "fatality",
          "emergency", "evacuation", "first aid", "safety officer",
          "safety inspection", "safety audit", "safety compliance",
          "hazard identification", "risk control", "safety plan" ]
      regulatoryPatterns :=
        [ seqAll [rWord "whs", rSpaces, rWord "act", rSpaces, rD4],
          seqAll [rWord "work", rSpaces, rWord "health", rSpaces, rWord "and", rSpaces,
                  rWord "safety", rSpaces, rWord "act"],
          seqAll [rWord "occupational", rSpaces, rWord "health", rSpaces, rWord "and",
                  rSpaces, rWord "safety"],
          seqAll [rWord "safety", rSpaces, rWord "management", rSpaces, rWord "system"],
          seqAll [rWord "as", rSpaces, rDigits, rDot, rDigits, rDotStar, rWord "safety"] ]
      weight := 1
      subtypes :=
        [ ("safety_management_system", ["sms", "safety management system", "safety management"]),
          ("hazard_management", ["hazard", "risk assessment", "hazard identification"]),
          ("emergency_procedures", ["emergency", "evacuation", "emergency response"]),
          ("safety_training", ["safety training", "competency", "safety education"]),
          ("contractor_safety", ["contractor safety", "subcontractor safety"]) ] },
    { name := "environmental_compliance"
      keywords :=
        [ "environmental", "environment", "epbc", "environmental protection",
          "biodiversity", "cultural heritage", "native title",
          "rehabilitation", "restoration", "remediation",
          "water", "air quality", "noise", "dust", "emissions",
          "waste", "contamination", "pollution", "discharge",
          "impact assessment", "environmental impact",
          "flora", "fauna", "ecosystem", "habitat",
          "groundwater", "surface water", "water management" ]
      regulatoryPatterns :=
        [ seqAll [rWord "epbc", rSpaces, rWord "act"],
          seqAll [rWord "environment", rSpaces, rWord "protection", rSpaces, rWord "and",
                  rSpaces, rWord "biodiversity", rSpaces, rWord "conservation"],
          seqAll [rWord "environmental", rSpaces, rWord "protection", rSpaces, rWord "act"],
          seqAll [rWord "native", rSpaces, rWord "title", rSpaces, rWord "act"],
          seqAll [rWord "cultural", rSpaces, rWord "heritage", rSpaces, rWord "act"] ]
      weight := 1
      subtypes :=
        [ ("environmental_impact_assessment", ["eia", "impact assessment", "environmental assessment"]),
          ("water_management", ["water", "groundwater", "surface water", "water quality"]),
          ("rehabilitation_obligations", ["rehabilitation", "restoration", "remediation"]),
          ("waste_management", ["waste", "disposal", "waste management"]),
          ("cultural_heritage", ["cultural heritage", "aboriginal heritage", "indigenous"]) ] },
    { name := "operational_compliance"
      keywords :=
        [ "tenement", "mining lease", "exploration licence",
          "production", "extraction", "mining operations",
          "reporting", "audit", "inspection", "monitoring",
          "compliance", "record keeping", "documentation",
          "annual report", "quarterly report", "notification",
          "approval", "permit", "licence", "authorization",
          "variation", "amendment", "renewal", "transfer" ]
      regulatoryPatterns :=
        [ seqAll [rWord "mining", rSpaces, rWord "act", rSpaces, rD4],
          seqAll [rWord "petroleum", rSpaces, rWord "and", rSpaces, rWord "gas", rSpaces,
                  rWord "act"],
          seqAll [rWord "mineral", rSpaces, rWord "resources", rSpaces, rWord "act"],
          seqAll [rWord "exploration", rSpaces, rWord "licence"],
          seqAll [rWord "mining", rSpaces, rWord "lease"] ]
      weight := 1
      subtypes :=
        [ ("tenement_conditions", ["tenement", "lease conditions", "licence conditions"]),
          ("reporting_obligations", ["reporting", "report", "notification"]),
          ("audit_access", ["audit", "inspection", "access"]),
          ("documentation_requirements", ["documentation", "record keeping", "records"]),
          ("change_management", ["variation", "amendment", "change"]) ] },
    { name := "commercial_terms"
      keywords :=
        [ "payment", "price", "cost", "fee", "charge",
          "invoice", "billing", "remuneration", "compensation",
          "delivery", "supply", "provision", "service",
          "warranty", "guarantee", "representation",
          "indemnity", "liability", "insurance",
          "termination", "expiry", "renewal", "extension" ]
      regulatoryPatterns := [rWord "gst", rWord "tax", rWord "duty", rWord "levy"]
      weight := 4/5
      subtypes :=
        [ ("payment_terms", ["payment", "invoice", "billing", "remuneration"]),
          ("delivery_conditions", ["delivery", "supply", "provision"]),
          ("warranties", ["warranty", "guarantee", "representation"]),
          ("indemnities", ["indemnity", "liability", "insurance"]),
          ("termination_clauses", ["termination", "expiry", "breach"]) ] },
    { name := "legal_provisions"
      keywords :=
        [ "governing law", "jurisdiction", "dispute resolution",
          "arbitration", "mediation", "court", "tribunal",
          "breach", "default", "remedy", "damages",
          "force majeure", "act of god", "unforeseen circumstances",
          "confidentiality", "non-disclosure", "proprietary",
          "intellectual property", "copyright", "patent" ]
      regulatoryPatterns :=
        [ seqAll [rWord "corporations", rSpaces, rWord "act"],
          seqAll [rWord "competition", rSpaces, rWord "and", rSpaces, rWord "consumer",
                  rSpaces, rWord "act"],
          seqAll [rWord "australian", rSpaces, rWord "consumer", rSpaces, rWord "law"] ]
      weight := 7/10
      subtypes :=
        [ ("dispute_resolution", ["dispute", "arbitration", "mediation"]),
          ("governing_law", ["governing law", "jurisdiction"]),
          ("confidentiality", ["confidential", "non-disclosure", "proprietary"]),
          ("intellectual_property", ["intellectual property", "copyright", "patent"]),
          ("force_majeure", ["force majeure", "act of god"]) ] } ]

/-- Python `needle in hay` (substring containment) on character lists. -/
def listContains (needle : List Char) : List Char → Bool
  | [] => needle.isEmpty
  | c :: t => needle.isPrefixOf (c :: t) || listContains needle t

/-- Python `keyword in text` (substring containment). -/
def kwInText (kw : String) (text : List Char) : Bool := listContains kw.toList text

structure ScoreData where
  rawScore : ℚ
  weightedScore : ℚ
  normalizedScore : ℚ
  keywordsFound : ℕ
deriving DecidableEq, Repr

/-- `ClauseClassifier._apply_classification_rules`, translated loop by loop:
`score` accumulates `+1` per keyword present and `+2` per regulatory pattern
found, then is weighted by the rule weight and normalized per 50 words. -/
def applyClassificationRules (text : List Char) : List (String × ScoreData) :=
  classificationRules.map (fun rule =>
    let kwStep := rule.keywords.foldl
      (fun (acc : ℚ × ℕ) kw => if kwInText kw text then (acc.1 + 1, acc.2 + 1) else acc) (0, 0)
    let score := rule.regulatoryPatterns.foldl
      (fun (s : ℚ) p => if reSearch p text then s + 2 else s) kwStep.1
    let weightedScore := score * rule.weight
    let wordCount := (splitWS text).length
    let normalizedScore := weightedScore / max 1 ((wordCount : ℚ) / 50)
    (rule.name,
     { rawScore := score, weightedScore := weightedScore,
       normalizedScore := min 1 normalizedScore, keywordsFound := kwStep.2 }))

/-- `ClauseClassifier._determine_primary_classification`. -/
def determinePrimaryClassification (scores : List (String × ScoreData)) : String × ℚ :=
  if scores.isEmpty then ("unknown", 0)
  else
    let best := scores.foldl
      (fun (b : String × ℚ) sd =>
        if b.2 < sd.2.normalizedScore then (sd.1, sd.2.normalizedScore) else b)
      ("unknown", 0)
    if best.2 < 1/10 then ("unknown", 0) else best

/-! ## Entity recognition: `clause_extraction/entity_recognizer.py`

Entities are the dict-shaped records the recognizer builds; character
offsets are natural numbers (regex match offsets).  `_merge_entities` and
`_validate_entities` are translated statement by statement.
`extract_entities` wraps them: pattern extraction and the optional
spaCy pass run inside a `try` whose `except` returns `[]`; their
outcomes are the two explicit parameters (`.error` models an exception
raised during extraction). -/

structure PEntity where
  entityType : String
  entityValue : String
  confidence : ℚ
  startPosition : ℕ
  endPosition : ℕ
  context : String
  normalizedValue : String
  extractionMethod : String
deriving DecidableEq, Repr

/-- The overlap test of `_merge_entities`:
`next.start_position <= current.end_position and next.end_position >= current.start_position`. -/
def overlapB (cur nxt : PEntity) : Bool :=
  nxt.startPosition ≤ cur.endPosition && cur.startPosition ≤ nxt.endPosition

/-- One insertion step of a stable sort by `start_position`: a new element goes
after all existing elements with a key less than or equal to its own, which is
how Python's stable `sorted(entities, key=lambda x: x['start_position'])`
orders elements. -/
def insertByStart (e : PEntity) : List PEntity → List PEntity
  | [] => [e]
  | x :: xs =>
    if x.startPosition ≤ e.startPosition then x :: insertByStart e xs else e :: x :: xs

/-- Stable sort by `start_position` (insertion sort, processing left to right). -/
def sortByStart (l : List PEntity) : List PEntity :=
  l.foldl (fun acc e => insertByStart e acc) []

/-- The left-to-right scan of `_merge_entities`: on overlap the higher
confidence entity is kept as `current` (ties keep `current`), otherwise
`current` is emitted and the scan moves on. -/
def mergeScan (cur : PEntity) : List PEntity → List PEntity
  | [] => [cur]
  | n :: rest =>
    if overlapB cur n then
      mergeScan (if cur.confidence < n.confidence then n else cur) rest
    else cur :: mergeScan n rest

/-- `EntityRecognizer._merge_entities`. -/
def mergeEntities (l : List PEntity) : List PEntity :=
  match sortByStart l with
  | [] => []
  | x :: xs => mergeScan x xs

/-- The keep condition of `_validate_entities`: non-empty value of stripped
length at least 2, confidence at least 0.3, offsets in range, and the slice
`text[start:end]` containing the value case-insensitively. -/
def validEntityB (text : List Char) (e : PEntity) : Bool :=
  !e.entityValue.toList.isEmpty &&
  2 ≤ (stripC e.entityValue.toList).length &&
  !(e.confidence < 3/10) &&
  0 ≤ e.startPosition &&
  e.endPosition ≤ text.length &&
  listContains (lowerL e.entityValue.toList) (lowerL (pySlice text e.startPosition e.endPosition))

/-- `EntityRecognizer._validate_entities`. -/
def validateEntities (entities : List PEntity) (text : List Char) : List PEntity :=
  entities.filter (validEntityB text)

/-- Outcome of the extraction passes inside `extract_entities`'s `try` block. -/
inductive ExtractionOutcome where
  | ok (entities : List PEntity) : ExtractionOutcome
  | error (msg : String) : ExtractionOutcome
deriving DecidableEq, Repr

/-- `EntityRecognizer.extract_entities`.  `patternOutcome` is the result of
`_extract_pattern_entities` (`.error` when it raises), `spacyEntities` the
optional spaCy pass (`none` when the model is unavailable). -/
def extractEntities (text : List Char) (patternOutcome : ExtractionOutcome)
    (spacyEntities : Option (List PEntity)) : List PEntity :=
  if text.isEmpty || (stripC text).isEmpty then []
  else
    match patternOutcome with
    | .error _ => []
    | .ok patternEntities =>
      let entities := patternEntities ++ (match spacyEntities with
        | none => []
        | some se => se)
      validateEntities (mergeEntities entities) text

/-! ## Agentic reasoning: `agentic_reasoning/agents/*.py` and `handler.py`

Each agent returns a Python dict; the exact key sets matter (the handler's
`result.get('risk_score', 0.5)` falls back to the default when a key is
absent), so agent results are association lists of string keys to a small
value type. -/

structure ComplianceGap where
  clauseId : String
  gapType : String
  severity : String
  recommendation : String
deriving DecidableEq, Repr

inductive PyVal where
  | num (q : ℚ) : PyVal
  | str (s : String) : PyVal
  | strList (l : List String) : PyVal
  | gapList (l : List ComplianceGap) : PyVal
  | none : PyVal
deriving DecidableEq, Repr

/-- Python `dict.get(key, default)`. -/
def dictGet (d : List (String × PyVal)) (k : String) (default : PyVal) : PyVal :=
  match dictFind? d k with
  | some v => v
  | Option.none => default

/-- Numeric value of a `PyVal` (all values summed by the handler are numbers). -/
def pyNum : PyVal → ℚ
  | .num q => q
  | _ => 0

/-- One row of `ANALYTICS.COMPLIANCE_MAPPINGS` as the agents read it. -/
structure MappingRecord where
  clauseId : String
  similarityScore : ℚ
  complianceCategory : String
deriving DecidableEq, Repr

/-- `SafetyComplianceAgent.analyze_compliance`. -/
def safetyAnalyzeCompliance (mappings : List MappingRecord) : List (String × PyVal) :=
  let safetyMappings := mappings.filter (fun m => m.complianceCategory = "safety_compliance")
  let gaps := (safetyMappings.filter (fun m => m.similarityScore < 4/5)).map
    (fun m => { clauseId := m.clauseId, gapType := "low_similarity", severity := "medium",
                recommendation := "Review safety requirements alignment" : ComplianceGap })
  let riskScore : ℚ := max (3/10) (1 - (gaps.length : ℚ) / max 1 (safetyMappings.length : ℚ))
  [ ("compliance_gaps", .gapList gaps),
    ("risk_score", .num riskScore),
    ("risk_level", .str (if riskScore < 3/5 then "high"
                         else if riskScore < 4/5 then "medium" else "low")),
    ("recommendations", .strList
      ["Address " ++ toString gaps.length ++ " safety compliance gaps"]),
    ("mappings_analyzed", .num (safetyMappings.length : ℚ)) ]

/-- `EnvironmentalAgent.analyze_compliance`. -/
def environmentalAnalyzeCompliance (mappings : List MappingRecord) : List (String × PyVal) :=
  let envMappings := mappings.filter (fun m => m.complianceCategory = "environmental_compliance")
  let gaps := (envMappings.filter (fun m => m.similarityScore < 3/4)).map
    (fun m => { clauseId := m.clauseId, gapType := "environmental_alignment", severity := "high",
                recommendation := "Strengthen environmental compliance requirements" : ComplianceGap })
  let riskScore : ℚ := max (1/5) (1 - (gaps.length : ℚ) / max 1 (envMappings.length : ℚ))
  [ ("compliance_gaps", .gapList gaps),
    ("risk_score", .num riskScore),
    ("risk_level", .str (if riskScore < 1/2 then "critical"
                         else if riskScore < 7/10 then "high" else "medium")),
    ("recommendations", .strList
      ["Address " ++ toString gaps.length ++ " environmental compliance gaps"]),
    ("mappings_analyzed", .num (envMappings.length : ℚ)) ]

/-- `RiskAssessmentAgent.analyze_compliance`: note the score is returned under
the key `overall_risk_score`, unlike the other two agents. -/
def riskAnalyzeCompliance (mappings : List MappingRecord) : List (String × PyVal) :=
  let totalMappings := mappings.length
  if totalMappings = 0 then
    [ ("overall_risk_score", .num 1),
      ("risk_level", .str "critical"),
      ("risk_factors", .strList ["No compliance mappings found"]),
      ("recommendations", .strList ["Immediate compliance review required"]) ]
  else
    let lowSimilarityCount := (mappings.filter (fun m => m.similarityScore < 7/10)).length
    let riskRatio : ℚ := (lowSimilarityCount : ℚ) / (totalMappings : ℚ)
    let overallRisk : ℚ := min 1 (riskRatio + 1/5)
    let riskLevel := if 4/5 < overallRisk then "critical"
                     else if 3/5 < overallRisk then "high"
                     else if 2/5 < overallRisk then "medium" else "low"
    [ ("overall_risk_score", .num (pyRound3 overallRisk)),
      ("risk_level", .str riskLevel),
      ("risk_factors", .strList
        [toString lowSimilarityCount ++ " mappings with low similarity"]),
      ("recommendations", .strList
        (if 3/5 < overallRisk then ["Comprehensive compliance review recommended"]
         else ["Monitor compliance status"])),
      ("mappings_analyzed", .num (totalMappings : ℚ)) ]

/-- The agent loop of `AgenticReasoningHandler.process_agentic_reasoning`:
`self.agents` holds safety, environmental and risk in insertion order. -/
def runAgents (mappings : List MappingRecord) : List (String × List (String × PyVal)) :=
  [ ("safety", safetyAnalyzeCompliance mappings),
    ("environmental", environmentalAnalyzeCompliance mappings),
    ("risk", riskAnalyzeCompliance mappings) ]

structure ConsolidatedAnalysis where
  overallRiskScore : ℚ
  agentCount : ℕ
  consolidatedRecommendations : List String
deriving DecidableEq, Repr

/-- `AgenticReasoningHandler._consolidate_analyses`. -/
def consolidateAnalyses (agentResults : List (String × List (String × PyVal))) :
    ConsolidatedAnalysis :=
  let riskScores := agentResults.map (fun r => dictGet r.2 "risk_score" (.num (1/2)))
  let overallRisk : ℚ :=
    if riskScores.isEmpty then 1/2
    else (riskScores.map pyNum).sum / (riskScores.length : ℚ)
  { overallRiskScore := pyRound3 overallRisk
    agentCount := agentResults.length
    consolidatedRecommendations := [] }

/-! ## Semantic mapping: `semantic_mapping/handler.py`

`SemanticMappingHandler.process_semantic_mapping` over an explicit database
state.  The embedding service is external: `similarRegs` maps a clause text
to the rows `find_similar_regulations` returns for the clause's embedding.
The handler reads the document's clauses, stores one clause embedding and one
mapping row per similar regulation, and returns a success response; it never
reads or writes the document's status. -/

structure ClauseRow where
  clauseId : String
  clauseText : String
  clauseType : String
deriving DecidableEq, Repr

structure RegRow where
  regulationId : String
  similarityScore : ℚ
  regulationCategory : String
deriving DecidableEq, Repr

structure CMappingRow where
  mappingId : String
  clauseId : String
  regulationId : String
  similarityScore : ℚ
  mappingType : String
  complianceCategory : String
deriving DecidableEq, Repr

structure SMState where
  documentStatus : String
  clauses : List ClauseRow
  clauseEmbeddings : List (String × String)
  mappings : List CMappingRow
deriving DecidableEq, Repr

structure SMResponse where
  success : Bool
  mappingsCreated : ℕ
  processingStatus : String
deriving DecidableEq, Repr

/-- `SemanticMappingHandler.process_semantic_mapping`: each invocation runs the
full insert loop over the document's clauses. -/
def processSemanticMapping (similarRegs : String → List RegRow) (st : SMState) :
    SMState × SMResponse :=
  let step := st.clauses.foldl
    (fun (acc : SMState × ℕ) clause =>
      let withEmb := { acc.1 with clauseEmbeddings :=
        acc.1.clauseEmbeddings ++ [("emb_" ++ clause.clauseId, clause.clauseId)] }
      let regs := similarRegs clause.clauseText
      let newRows := regs.map (fun reg =>
        { mappingId := "map_" ++ clause.clauseId ++ "_" ++ reg.regulationId
          clauseId := clause.clauseId
          regulationId := reg.regulationId
          similarityScore := reg.similarityScore
          mappingType := "semantic_similarity"
          complianceCategory := reg.regulationCategory : CMappingRow })
      ({ withEmb with mappings := withEmb.mappings ++ newRows }, acc.2 + newRows.length))
    (st, 0)
  (step.1,
   { success := true, mappingsCreated := step.2,
     processingStatus := "semantic_mapping_completed" })

/-! ## Concrete inputs used by the theorems below -/

/-- A Textract result with two pages: page `p1` has no lines (confidence 0),
page `p2` has one line of confidence 80. -/
def twoPageResults : TextractResults :=
  { jobId := "job-ex"
    blocks :=
      [ { blockType := "PAGE", id := "p1", text := "", confidence := 0, page := 1,
          geometry := none, relationships := [] },
        { blockType := "PAGE", id := "p2", text := "", confidence := 0, page := 2,
          geometry := none, relationships := [{ relType := "CHILD", ids := ["l1"] }] },
        { blockType := "LINE", id := "l1", text := "hello world", confidence := 80, page := 2,
          geometry := none, relationships := [] } ] }

/-- A well-formed entity: value present at the recorded offsets. -/
def entReg : PEntity :=
  { entityType := "regulation_reference", entityValue := "Mining Act 1992",
    confidence := 9/10, startPosition := 0, endPosition := 15,
    context := "Mining Act 1992 applies", normalizedValue := "Mining Act 1992",
    extractionMethod := "pattern" }

/-- The clause text `entReg` points into. -/
def entRegText : List Char := "Mining Act 1992 applies".toList

/-- Entity spanning `[5,10]` with confidence `0.5`. -/
def entWide : PEntity :=
  { entityType := "time_period", entityValue := "aa", confidence := 1/2,
    startPosition := 5, endPosition := 10, context := "", normalizedValue := "",
    extractionMethod := "pattern" }

/-- A degenerate entity whose `end_position` (2) precedes its
`start_position` (6), with confidence `0.4`. -/
def entInverted : PEntity :=
  { entityType := "date", entityValue := "bb", confidence := 2/5,
    startPosition := 6, endPosition := 2, context := "", normalizedValue := "",
    extractionMethod := "spacy" }

/-- Entity spanning `[7,8]` with confidence `0.5`. -/
def entLate : PEntity :=
  { entityType := "monetary", entityValue := "cc", confidence := 1/2,
    startPosition := 7, endPosition := 8, context := "", normalizedValue := "",
    extractionMethod := "pattern" }

/-- Two well-formed overlapping entities, the second with lower confidence. -/
def entPair : List PEntity :=
  [ { entityType := "organization", entityValue := "dd", confidence := 9/10,
      startPosition := 10, endPosition := 20, context := "", normalizedValue := "",
      extractionMethod := "pattern" },
    { entityType := "location", entityValue := "ee", confidence := 3/5,
      startPosition := 15, endPosition := 25, context := "", normalizedValue := "",
      extractionMethod := "pattern" } ]

/-- A similarity oracle returning one regulation row for every clause text. -/
def oneRegOracle : String → List RegRow :=
  fun _ => [{ regulationId := "r1", similarityScore := 4/5,
              regulationCategory := "safety_compliance" }]

/-- A database state in which the document is already past the semantic
mapping stage: its status is `semantic_mapping_completed` and the mapping
row `map_c1_r1` produced by the first invocation is already stored. -/
def completedSMState : SMState :=
  { documentStatus := "semantic_mapping_completed"
    clauses := [{ clauseId := "c1", clauseText := "the contractor shall comply",
                  clauseType := "safety_compliance" }]
    clauseEmbeddings := [("emb_c1", "c1")]
    mappings := [{ mappingId := "map_c1_r1", clauseId := "c1", regulationId := "r1",
                   similarityScore := 4/5, mappingType := "semantic_similarity",
                   complianceCategory := "safety_compliance" }] }

/-- A small well-formed entity whose value sits at offsets `[0,2)` of `"abc"`. -/
def entAB : PEntity :=
  { entityType := "time_period", entityValue := "ab", confidence := 9/10,
    startPosition := 0, endPosition := 2, context := "abc", normalizedValue := "ab",
    extractionMethod := "pattern" }

/-! ## Theorems -/

/-- C1: with zero compliance mappings all three agents report a risk score of
1.0, yet the consolidated `overall_risk_score` is `0.833`, not the mean
`round(1.0, 3) = 1.0` of the three agents' scores: `_consolidate_analyses`
reads the key `risk_score` with default `0.5`, while the risk agent returns
its score under `overall_risk_score`, so `0.5` silently replaces it. -/
theorem consolidated_score_uses_default_for_risk_agent :
    pyNum (dictGet (safetyAnalyzeCompliance []) "risk_score" (.num (1/2))) = 1 ∧
    pyNum (dictGet (environmentalAnalyzeCompliance []) "risk_score" (.num (1/2))) = 1 ∧
    pyNum (dictGet (riskAnalyzeCompliance []) "overall_risk_score" .none) = 1 ∧
    (consolidateAnalyses (runAgents [])).overallRiskScore = 833/1000 ∧
    (consolidateAnalyses (runAgents [])).overallRiskScore ≠ pyRound3 ((1 + 1 + 1) / 3) := by
  refine ⟨?_, ?_, ?_, ?_, ?_⟩
  · simp [safetyAnalyzeCompliance, dictGet, dictFind?, pyNum]
    norm_num
  · simp [environmentalAnalyzeCompliance, dictGet, dictFind?, pyNum]
    norm_num
  · simp [riskAnalyzeCompliance, dictGet, dictFind?, pyNum]
  · simp [consolidateAnalyses, runAgents, safetyAnalyzeCompliance,
          environmentalAnalyzeCompliance, riskAnalyzeCompliance, dictGet, dictFind?,
          pyNum, pyRound3, roundHalfEven]
    norm_num [Int.fract]
  · simp [consolidateAnalyses, runAgents, safetyAnalyzeCompliance,
          environmentalAnalyzeCompliance, riskAnalyzeCompliance, dictGet, dictFind?,
          pyNum, pyRound3, roundHalfEven]
    norm_num [Int.fract]

/-- C6: with zero mappings the risk agent returns score 1.0, level `critical`
and the fixed "no mappings found" gap, but that score does not enter the
consolidated mean as 1.0: the agent's dict has no `risk_score` key, so the
handler's `get('risk_score', 0.5)` yields 0.5 and the consolidated score is
0.833 rather than 1.0. -/
theorem risk_agent_zero_mappings_score_dropped :
    dictGet (riskAnalyzeCompliance []) "overall_risk_score" .none = .num 1 ∧
    dictGet (riskAnalyzeCompliance []) "risk_level" .none = .str "critical" ∧
    dictGet (riskAnalyzeCompliance []) "risk_factors" .none =
      .strList ["No compliance mappings found"] ∧
    dictGet (riskAnalyzeCompliance []) "risk_score" (.num (1/2)) = .num (1/2) ∧
    (consolidateAnalyses (runAgents [])).overallRiskScore = 833/1000 ∧
    (833/1000 : ℚ) ≠ 1 := by
  refine ⟨?_, ?_, ?_, ?_, ?_, by norm_num⟩
  · simp [riskAnalyzeCompliance, dictGet, dictFind?]
  · simp [riskAnalyzeCompliance, dictGet, dictFind?]
  · simp [riskAnalyzeCompliance, dictGet, dictFind?]
  · simp [riskAnalyzeCompliance, dictGet, dictFind?]
  · simp [consolidateAnalyses, runAgents, safetyAnalyzeCompliance,
          environmentalAnalyzeCompliance, riskAnalyzeCompliance, dictGet, dictFind?,
          pyNum, pyRound3, roundHalfEven]
    norm_num [Int.fract]

/-- C2: re-invoking the semantic mapping stage on a document that is already
at `semantic_mapping_completed` and already holds the mapping row is not a
no-op: the handler reports success but inserts a second copy of the row
(`process_semantic_mapping` performs no status check and no duplicate
detection). -/
theorem semantic_mapping_reinvocation_inserts_duplicate :
    completedSMState.documentStatus = "semantic_mapping_completed" ∧
    (processSemanticMapping oneRegOracle completedSMState).2.success = true ∧
    (processSemanticMapping oneRegOracle completedSMState).2.mappingsCreated = 1 ∧
    (processSemanticMapping oneRegOracle completedSMState).1.mappings.length =
      completedSMState.mappings.length + 1 := by
  refine ⟨rfl, ?_, ?_, ?_⟩
  · simp [processSemanticMapping, oneRegOracle, completedSMState]
  · simp [processSemanticMapping, oneRegOracle, completedSMState]
  · simp [processSemanticMapping, oneRegOracle, completedSMState]

/-- C3, counterexample: for a document with pages of confidence 0 and 80, the
returned document confidence is 80, not the arithmetic mean 40 of all page
confidences — `process_textract_results` only averages over pages whose
confidence is strictly positive. -/
theorem document_confidence_not_mean_of_all_pages :
    (processTextractResults twoPageResults).pages.map (·.confidence) = [0, 80] ∧
    (processTextractResults twoPageResults).confidence = 80 ∧
    (processTextractResults twoPageResults).confidence ≠
      (((processTextractResults twoPageResults).pages.map (·.confidence)).sum /
        (((processTextractResults twoPageResults).pages.length : ℕ) : ℚ)) := by
  refine ⟨?_, ?_, ?_⟩
  · simp [processTextractResults, twoPageResults, processPage, processLine, childIdsOf,
          dictPut, dictFind?, detectTables, detectImages, splitWS, splitWSAux,
          hasColumnSeparator, pyRound3, roundHalfEven]
    norm_num [Int.fract]
  · simp [processTextractResults, twoPageResults, processPage, processLine, childIdsOf,
          dictPut, dictFind?, detectTables, detectImages, splitWS, splitWSAux,
          hasColumnSeparator, pyRound3, roundHalfEven]
    norm_num [Int.fract]
  · simp [processTextractResults, twoPageResults, processPage, processLine, childIdsOf,
          dictPut, dictFind?, detectTables, detectImages, splitWS, splitWSAux,
          hasColumnSeparator, pyRound3, roundHalfEven]
    norm_num [Int.fract]

theorem foldl_add_eq_sum {α : Type} (f : α → ℚ) :
    ∀ (l : List α) (a : ℚ), List.foldl (fun s x => s + f x) a l = a + (l.map f).sum := by
  intro l
  induction l with
  | nil => simp
  | cons x xs ih =>
    intro a
    simp only [List.foldl_cons, List.map_cons, List.sum_cons, ih]
    ring

theorem overall_conf_eq (pages : List PageInfo) :
    pyRound3 (if 0 < (pages.filter (fun p => 0 < p.confidence)).length
      then (pages.filter (fun p => 0 < p.confidence)).foldl (fun s p => s + p.confidence) 0 /
           (((pages.filter (fun p => 0 < p.confidence)).length : ℕ) : ℚ)
      else 0) =
    pyRound3 (if (pages.filter (fun p => 0 < p.confidence)).isEmpty then 0
      else ((pages.filter (fun p => 0 < p.confidence)).map (·.confidence)).sum /
           (((pages.filter (fun p => 0 < p.confidence)).length : ℕ) : ℚ)) := by
  by_cases h : (pages.filter (fun p => 0 < p.confidence)).isEmpty
  · simp [h, List.isEmpty_iff_length_eq_zero.mp h]
  · have hlen : 0 < (pages.filter (fun p => 0 < p.confidence)).length := by
      cases hf : (pages.filter (fun p => 0 < p.confidence)) with
      | nil => simp [hf] at h
      | cons a t => simp [hf]
    rw [if_pos hlen, if_neg h, foldl_add_eq_sum]
    ring_nf

/-- C3, amended: the returned document confidence is `round3` of the
arithmetic mean of the *strictly positive* page confidences, and 0 when no
page has positive confidence (in particular for an empty page set);
zero-confidence pages are excluded from the mean. -/
theorem document_confidence_mean_of_positive_pages (res : TextractResults) :
    (processTextractResults res).confidence =
      pyRound3 (if ((processTextractResults res).pages.filter (fun p => 0 < p.confidence)).isEmpty
        then 0
        else (((processTextractResults res).pages.filter (fun p => 0 < p.confidence)).map
                (·.confidence)).sum /
          ((((processTextractResults res).pages.filter
              (fun p => 0 < p.confidence)).length : ℕ) : ℚ)) := by
  simp only [processTextractResults]
  exact overall_conf_eq _

theorem space_not_digit {c : Char} (h : isSpaceC c = true) : isDigitC c = false := by
  simp only [isSpaceC, Bool.or_eq_true, decide_eq_true_eq] at h
  rcases h with ((((h | h) | h) | h) | h) | h <;> subst h <;> decide

theorem numBodyScan_spec :
    ∀ (rest : List Char) (acc b after : List Char),
      numBodyScan acc rest = some (b, after) →
      ∃ consumed, consumed ≠ [] ∧ (∀ c ∈ consumed, isDigitC c = false) ∧
        b = acc.reverse ++ consumed ∧ rest = consumed ++ after := by
  intro rest
  induction rest with
  | nil => intro acc b after h; simp [numBodyScan] at h
  | cons c cs ih =>
    intro acc b after h
    simp only [numBodyScan] at h
    by_cases hd : isDigitC c
    · simp [hd] at h
    · simp only [hd, Bool.false_eq_true, if_false] at h
      by_cases hl : numLookahead cs
      · simp only [hl, if_true] at h
        obtain ⟨hb, ha⟩ := Prod.mk.injEq .. ▸ (Option.some.injEq .. ▸ h)
        refine ⟨[c], by simp, by simp [hd], ?_, ?_⟩
        · rw [← hb]; simp
        · rw [← ha]; simp
      · simp only [hl, Bool.false_eq_true, if_false] at h
        obtain ⟨consumed, hne, hnd, hb, hrest⟩ := ih (c :: acc) b after h
        refine ⟨c :: consumed, by simp, ?_, ?_, ?_⟩
        · intro x hx
          rcases List.mem_cons.mp hx with hx | hx
          · subst hx; exact eq_false_of_ne_true hd
          · exact hnd x hx
        · rw [hb]; simp
        · rw [hrest]; simp

theorem numBodyScan_after_lt {acc rest b after : List Char}
    (h : numBodyScan acc rest = some (b, after)) : after.length < rest.length := by
  obtain ⟨consumed, hne, -, -, hrest⟩ := numBodyScan_spec rest acc b after h
  rw [hrest, List.length_append]
  have : 0 < consumed.length := List.length_pos.mpr hne
  omega

theorem numTrySpaces_spec :
    ∀ (t : ℕ) (ds sp r3 m after : List Char),
      numTrySpaces ds sp r3 t = some (m, after) →
      ∃ tt body, body ≠ [] ∧ (∀ c ∈ body, isDigitC c = false) ∧
        m = ds ++ '.' :: (sp.take tt ++ body) ∧ after.length < sp.length + r3.length := by
  intro t
  induction t with
  | zero => intro ds sp r3 m after h; simp [numTrySpaces] at h
  | succ t ih =>
    intro ds sp r3 m after h
    simp only [numTrySpaces] at h
    cases hscan : numBodyScan [] (sp.drop (t + 1) ++ r3) with
    | none => rw [hscan] at h; exact ih ds sp r3 m after h
    | some p =>
      obtain ⟨b, a⟩ := p
      rw [hscan] at h
      obtain ⟨hm, ha⟩ := Prod.mk.injEq .. ▸ (Option.some.injEq .. ▸ h)
      obtain ⟨consumed, hne, hnd, hb, hrest⟩ :=
        numBodyScan_spec (sp.drop (t + 1) ++ r3) [] b a hscan
      have hb' : b = consumed := by rw [hb]; simp
      refine ⟨t + 1, b, hb' ▸ hne, hb' ▸ hnd, ?_, ?_⟩
      · rw [← hm]; simp
      · have h1 : a.length < (sp.drop (t + 1) ++ r3).length := numBodyScan_after_lt hscan
        rw [List.length_append, List.length_drop] at h1
        rw [← ha]
        omega

theorem dropWhile_append_of_all {p : Char → Bool} :
    ∀ (l r : List Char), (∀ c ∈ l, p c = true) → (l ++ r).dropWhile p = r.dropWhile p := by
  intro l
  induction l with
  | nil => simp
  | cons c cs ih =>
    intro r h
    have hc : p c = true := h c (List.mem_cons_self c cs)
    simp only [List.cons_append, List.dropWhile_cons, hc, if_true]
    exact ih r (fun x hx => h x (List.mem_cons_of_mem c hx))

theorem numAttempt_spec {s m rest : List Char} (h : numAttempt s = some (m, rest)) :
    ∃ (ds sp : List Char) (tt : ℕ) (body : List Char),
      (∀ c ∈ ds, isDigitC c = true) ∧ ds ≠ [] ∧
      (∀ c ∈ sp, isSpaceC c = true) ∧ body ≠ [] ∧ (∀ c ∈ body, isDigitC c = false) ∧
      m = ds ++ '.' :: (sp.take tt ++ body) := by
  unfold numAttempt at h
  by_cases hds : (s.takeWhile isDigitC).isEmpty
  · simp [hds] at h
  · simp only [hds, Bool.false_eq_true, if_false] at h
    cases hr1 : s.dropWhile isDigitC with
    | nil => rw [hr1] at h; simp at h
    | cons c r2 =>
      rw [hr1] at h
      by_cases hc : c = '.'
      · subst hc
        simp only at h
        by_cases hsp : (r2.takeWhile isSpaceC).isEmpty
        · simp [hsp] at h
        · simp only [hsp, Bool.false_eq_true, if_false] at h
          obtain ⟨tt, body, hbne, hbnd, hm, -⟩ :=
            numTrySpaces_spec ((r2.takeWhile isSpaceC).length) (s.takeWhile isDigitC)
              (r2.takeWhile isSpaceC) (r2.dropWhile isSpaceC) m rest h
          refine ⟨s.takeWhile isDigitC, r2.takeWhile isSpaceC, tt, body,
            ?_, ?_, ?_, hbne, hbnd, hm⟩
          · intro x hx; exact List.mem_takeWhile_imp hx
          · intro he; exact hds (by simp [he])
          · intro x hx; exact List.mem_takeWhile_imp hx
      · cases c
        simp_all

theorem numAttempt_rest_lt {s m rest : List Char} (h : numAttempt s = some (m, rest)) :
    rest.length < s.length := by
  unfold numAttempt at h
  by_cases hds : (s.takeWhile isDigitC).isEmpty
  · simp [hds] at h
  · simp only [hds, Bool.false_eq_true, if_false] at h
    cases hr1 : s.dropWhile isDigitC with
    | nil => rw [hr1] at h; simp at h
    | cons c r2 =>
      rw [hr1] at h
      by_cases hc : c = '.'
      · subst hc
        simp only at h
        by_cases hsp : (r2.takeWhile isSpaceC).isEmpty
        · simp [hsp] at h
        · simp only [hsp, Bool.false_eq_true, if_false] at h
          obtain ⟨-, -, -, -, -, hlt⟩ :=
            numTrySpaces_spec ((r2.takeWhile isSpaceC).length) (s.takeWhile isDigitC)
              (r2.takeWhile isSpaceC) (r2.dropWhile isSpaceC) m rest h
          have hr2 : (r2.takeWhile isSpaceC).length + (r2.dropWhile isSpaceC).length
              = r2.length := by
            conv_rhs => rw [← List.takeWhile_append_dropWhile (p := isSpaceC) (l := r2)]
            rw [List.length_append]
          have hs : s.length = (s.takeWhile isDigitC).length + 1 + r2.length := by
            conv_lhs => rw [← List.takeWhile_append_dropWhile (p := isDigitC) (l := s)]
            rw [hr1, List.length_append, List.length_cons]
            omega
          omega
      · cases c
        simp_all

theorem numFindallF_nil : ∀ f, numFindallF f [] = [] := by
  intro f
  cases f <;> rfl

theorem numFindallF_fuel :
    ∀ (f1 : ℕ) (s : List Char) (f2 : ℕ), s.length ≤ f1 → s.length ≤ f2 →
      numFindallF f1 s = numFindallF f2 s := by
  intro f1
  induction f1 with
  | zero =>
    intro s f2 h1 _
    have : s = [] := List.length_eq_zero.mp (Nat.le_zero.mp h1)
    subst this
    rw [numFindallF_nil, numFindallF_nil]
  | succ f1 ih =>
    intro s f2 h1 h2
    cases s with
    | nil => rw [numFindallF_nil, numFindallF_nil]
    | cons c cs =>
      cases f2 with
      | zero => simp at h2
      | succ f2 =>
        simp only [numFindallF]
        cases ha : numAttempt (c :: cs) with
        | none =>
          simp only [List.length_cons] at h1 h2
          exact ih cs f2 (by omega) (by omega)
        | some p =>
          obtain ⟨m, rest⟩ := p
          have hlt := numAttempt_rest_lt ha
          simp only [List.length_cons] at h1 h2 hlt
          show m :: numFindallF f1 rest = m :: numFindallF f2 rest
          rw [ih rest f2 (by omega) (by omega)]

theorem numFindallF_mem :
    ∀ (fuel : ℕ) (s m : List Char), m ∈ numFindallF fuel s →
      ∃ s' rest, numAttempt s' = some (m, rest) := by
  intro fuel
  induction fuel with
  | zero => intro s m h; simp [numFindallF] at h
  | succ fuel ih =>
    intro s m h
    cases s with
    | nil => simp [numFindallF] at h
    | cons c cs =>
      simp only [numFindallF] at h
      cases ha : numAttempt (c :: cs) with
      | none => rw [ha] at h; exact ih cs m h
      | some p =>
        obtain ⟨m0, rest⟩ := p
        rw [ha] at h
        rcases List.mem_cons.mp h with h | h
        · exact ⟨c :: cs, rest, h ▸ ha⟩
        · exact ih rest m h

/-- C4, amended: every candidate produced by the numbered-clause pattern is a
`<digits>.` marker followed by characters none of which is a digit — the body
character class is `[^0-9]`, so a clause whose body contains a digit (such as
a monetary amount or a year) is not captured up to the next marker; its match
cannot extend past the first digit of the body. -/
theorem numbered_clause_body_has_no_digits (s m : List Char) (h : m ∈ numFindall s) :
    ((m.dropWhile isDigitC).drop 1).all (fun c => !(isDigitC c)) = true := by
  obtain ⟨s', rest, ha⟩ := numFindallF_mem s.length s m h
  obtain ⟨ds, sp, tt, body, hds, -, hsp, -, hbnd, hm⟩ := numAttempt_spec ha
  subst hm
  rw [dropWhile_append_of_all ds _ hds]
  have hdot : (('.' :: (sp.take tt ++ body)).dropWhile isDigitC)
      = '.' :: (sp.take tt ++ body) := by
    rw [List.dropWhile_cons]
    simp [show isDigitC '.' = false from by decide]
  rw [hdot, List.drop_one, List.tail_cons, List.all_eq_true]
  intro c hc
  rcases List.mem_append.mp hc with hc | hc
  · have hsc : isSpaceC c = true := hsp c (List.take_subset tt sp hc)
    simp [space_not_digit hsc]
  · simp [hbnd c hc]

/-- C4, counterexample: in `"1. Pay 5 dollars 2. Done"` the claim would have
the first candidate run from the `1.` marker to the `2.` marker, i.e. be
`"1. Pay 5 dollars"`; instead the numbered-clause pattern loses the first
clause entirely (the digit `5` in its body blocks the `[^0-9]+?` body) and
captures only `"2. Done"`. -/
theorem numbered_clause_with_digit_body_lost :
    numberedClauseTexts "1. Pay 5 dollars 2. Done" = ["2. Done"] ∧
    "1. Pay 5 dollars" ∉ numberedClauseTexts "1. Pay 5 dollars 2. Done" := by
  refine ⟨by decide, by decide⟩

theorem numbered_clause_body_has_no_digits_witness :
    ("2. Done".toList ∈ numFindall "2. Done".toList) ∧
    (("2. Done".toList.dropWhile isDigitC).drop 1).all (fun c => !(isDigitC c)) = true :=
  ⟨by decide,
   numbered_clause_body_has_no_digits "2. Done".toList "2. Done".toList (by decide)⟩

theorem foldl_kw_count (text : List Char) :
    ∀ (ks : List String) (a : ℚ) (b : ℕ),
      ks.foldl (fun (acc : ℚ × ℕ) kw =>
        if kwInText kw text then (acc.1 + 1, acc.2 + 1) else acc) (a, b)
      = (a + (ks.countP (fun kw => kwInText kw text) : ℚ),
         b + ks.countP (fun kw => kwInText kw text)) := by
  intro ks
  induction ks with
  | nil => intro a b; simp
  | cons k ks ih =>
    intro a b
    by_cases hk : kwInText k text
    · simp only [List.foldl_cons, hk, if_true, ih, List.countP_cons, hk]
      rw [Prod.mk.injEq]
      refine ⟨by push_cast; ring, by omega⟩
    · simp only [List.foldl_cons, hk, Bool.false_eq_true, if_false, ih, List.countP_cons]
      simp [hk]

theorem foldl_pat_count (text : List Char) :
    ∀ (ps : List RE) (s : ℚ),
      ps.foldl (fun (s : ℚ) p => if reSearch p text then s + 2 else s) s
      = s + 2 * (ps.countP (fun p => reSearch p text) : ℚ) := by
  intro ps
  induction ps with
  | nil => intro s; simp
  | cons p ps ih =>
    intro s
    by_cases hp : reSearch p text
    · simp only [List.foldl_cons, hp, if_true, ih, List.countP_cons, hp]
      push_cast
      ring
    · simp only [List.foldl_cons, hp, Bool.false_eq_true, if_false, ih, List.countP_cons]
      simp [hp]

theorem applyClassificationRules_eq (text : List Char) :
    applyClassificationRules text = classificationRules.map (fun rule =>
      (rule.name,
       { rawScore := (rule.keywords.countP (fun kw => kwInText kw text) : ℚ)
           + 2 * (rule.regulatoryPatterns.countP (fun p => reSearch p text) : ℚ)
         weightedScore := ((rule.keywords.countP (fun kw => kwInText kw text) : ℚ)
           + 2 * (rule.regulatoryPatterns.countP (fun p => reSearch p text) : ℚ)) * rule.weight
         normalizedScore := min 1
           ((((rule.keywords.countP (fun kw => kwInText kw text) : ℚ)
              + 2 * (rule.regulatoryPatterns.countP (fun p => reSearch p text) : ℚ))
             * rule.weight) / max 1 (((splitWS text).length : ℚ) / 50))
         keywordsFound := rule.keywords.countP (fun kw => kwInText kw text) })) := by
  unfold applyClassificationRules
  refine List.map_congr_left ?_
  intro rule _
  have hkw := foldl_kw_count text rule.keywords 0 0
  have hpat := foldl_pat_count text rule.regulatoryPatterns
    ((rule.keywords.foldl (fun (acc : ℚ × ℕ) kw =>
      if kwInText kw text then (acc.1 + 1, acc.2 + 1) else acc) (0, 0)).1)
  simp only [hkw] at hpat ⊢
  simp only [hpat]
  norm_num

theorem foldl_best_spec :
    ∀ (l : List (String × ScoreData)) (b : String × ℚ),
      (l.foldl (fun (b : String × ℚ) sd =>
          if b.2 < sd.2.normalizedScore then (sd.1, sd.2.normalizedScore) else b) b = b ∨
       l.foldl (fun (b : String × ℚ) sd =>
          if b.2 < sd.2.normalizedScore then (sd.1, sd.2.normalizedScore) else b) b ∈
         l.map (fun p => (p.1, p.2.normalizedScore))) ∧
      (l.foldl (fun (b : String × ℚ) sd =>
          if b.2 < sd.2.normalizedScore then (sd.1, sd.2.normalizedScore) else b) b).2 =
        (l.map (fun p => p.2.normalizedScore)).foldl max b.2 := by
  intro l
  induction l with
  | nil => intro b; exact ⟨Or.inl rfl, rfl⟩
  | cons sd rest ih =>
    intro b
    simp only [List.foldl_cons, List.map_cons]
    by_cases h : b.2 < sd.2.normalizedScore
    · rw [if_pos h]
      obtain ⟨hm, hv⟩ := ih (sd.1, sd.2.normalizedScore)
      refine ⟨?_, ?_⟩
      · rcases hm with hm | hm
        · exact Or.inr (by rw [hm]; exact List.mem_cons_self _ _)
        · exact Or.inr (List.mem_cons_of_mem _ hm)
      · rw [hv, max_eq_right (le_of_lt h)]
    · rw [if_neg h]
      obtain ⟨hm, hv⟩ := ih b
      refine ⟨?_, ?_⟩
      · rcases hm with hm | hm
        · exact Or.inl hm
        · exact Or.inr (List.mem_cons_of_mem _ hm)
      · rw [hv, max_eq_left (not_lt.mp h)]

/-- C5: for every clause text, each category score satisfies
`raw = (#keyword hits) + 2*(#regex hits)`, `weighted = raw * weight` (1.0 for
safety/environmental/operational, 0.8 commercial, 0.7 legal),
`normalized = min(1.0, weighted / max(1, word_count/50))`; the primary
category attains the maximum normalized score, and when that maximum is
below 0.1 the result is `("unknown", 0)`. -/
theorem classification_scores_formula_and_argmax (text : List Char) :
    (applyClassificationRules text = classificationRules.map (fun rule =>
      (rule.name,
       { rawScore := (rule.keywords.countP (fun kw => kwInText kw text) : ℚ)
           + 2 * (rule.regulatoryPatterns.countP (fun p => reSearch p text) : ℚ)
         weightedScore := ((rule.keywords.countP (fun kw => kwInText kw text) : ℚ)
           + 2 * (rule.regulatoryPatterns.countP (fun p => reSearch p text) : ℚ)) * rule.weight
         normalizedScore := min 1
           ((((rule.keywords.countP (fun kw => kwInText kw text) : ℚ)
              + 2 * (rule.regulatoryPatterns.countP (fun p => reSearch p text) : ℚ))
             * rule.weight) / max 1 (((splitWS text).length : ℚ) / 50))
         keywordsFound := rule.keywords.countP (fun kw => kwInText kw text) }))) ∧
    (((applyClassificationRules text).map (fun p => p.2.normalizedScore)).foldl max 0 < 1/10 →
      determinePrimaryClassification (applyClassificationRules text) = ("unknown", 0)) ∧
    (1/10 ≤ ((applyClassificationRules text).map (fun p => p.2.normalizedScore)).foldl max 0 →
      determinePrimaryClassification (applyClassificationRules text) ∈
        (applyClassificationRules text).map (fun p => (p.1, p.2.normalizedScore)) ∧
      (determinePrimaryClassification (applyClassificationRules text)).2 =
        ((applyClassificationRules text).map (fun p => p.2.normalizedScore)).foldl max 0) := by
  have hne : (applyClassificationRules text).isEmpty = false := rfl
  obtain ⟨hmem, hval⟩ := foldl_best_spec (applyClassificationRules text) ("unknown", 0)
  refine ⟨applyClassificationRules_eq text, ?_, ?_⟩
  · intro hlt
    unfold determinePrimaryClassification
    rw [hne]
    simp only [Bool.false_eq_true, if_false]
    rw [if_pos (by rw [hval]; exact hlt)]
  · intro hge
    unfold determinePrimaryClassification
    rw [hne]
    simp only [Bool.false_eq_true, if_false]
    rw [if_neg (by rw [hval]; exact not_lt.mpr hge)]
    rcases hmem with hm | hm
    · exfalso
      have h0 : (List.foldl (fun (b : String × ℚ) sd =>
          if b.2 < sd.2.normalizedScore then (sd.1, sd.2.normalizedScore) else b)
          ("unknown", 0) (applyClassificationRules text)).2 = 0 := by rw [hm]
      rw [hval] at h0
      rw [h0] at hge
      norm_num at hge
    · exact ⟨hm, hval⟩

theorem classification_scores_formula_and_argmax_witness :
    (((applyClassificationRules "".toList).map (fun p => p.2.normalizedScore)).foldl max 0
        < 1/10) ∧
    determinePrimaryClassification (applyClassificationRules "".toList) = ("unknown", 0) :=
  ⟨by norm_num [applyClassificationRules_eq, classificationRules, kwInText, listContains,
      reSearch, RE.matchesAtStart, RE.nullable, seqAll, rWord, rChar, rSpaces, rDigits,
      rD4, rDot, rDotStar, rePlus, splitWS, splitWSAux],
   (classification_scores_formula_and_argmax "".toList).2.1 (by
     norm_num [applyClassificationRules_eq, classificationRules, kwInText, listContains,
      reSearch, RE.matchesAtStart, RE.nullable, seqAll, rWord, rChar, rSpaces, rDigits,
      rD4, rDot, rDotStar, rePlus, splitWS, splitWSAux])⟩

theorem mem_insertByStart {a e : PEntity} :
    ∀ {l : List PEntity}, a ∈ insertByStart e l ↔ a = e ∨ a ∈ l := by
  intro l
  induction l with
  | nil => simp [insertByStart]
  | cons x xs ih =>
    by_cases hx : x.startPosition ≤ e.startPosition
    · simp only [insertByStart, hx, if_true, List.mem_cons, ih]
      tauto
    · simp only [insertByStart, hx, if_false, List.mem_cons]

theorem insertByStart_pairwise {e : PEntity} :
    ∀ {l : List PEntity},
      l.Pairwise (fun a b => a.startPosition ≤ b.startPosition) →
      (insertByStart e l).Pairwise (fun a b => a.startPosition ≤ b.startPosition) := by
  intro l
  induction l with
  | nil => intro _; simp [insertByStart]
  | cons x xs ih =>
    intro hp
    obtain ⟨hx, hxs⟩ := List.pairwise_cons.mp hp
    by_cases hle : x.startPosition ≤ e.startPosition
    · simp only [insertByStart, hle, if_true]
      refine List.pairwise_cons.mpr ⟨?_, ih hxs⟩
      intro b hb
      rcases mem_insertByStart.mp hb with hb | hb
      · subst hb; exact hle
      · exact hx b hb
    · simp only [insertByStart, hle, if_false]
      refine List.pairwise_cons.mpr ⟨?_, hp⟩
      intro b hb
      rcases List.mem_cons.mp hb with hb | hb
      · subst hb; omega
      · exact le_trans (by omega) (hx b hb)

theorem foldl_insertByStart_pairwise :
    ∀ (l acc : List PEntity),
      acc.Pairwise (fun a b => a.startPosition ≤ b.startPosition) →
      (l.foldl (fun acc e => insertByStart e acc) acc).Pairwise
        (fun a b => a.startPosition ≤ b.startPosition) := by
  intro l
  induction l with
  | nil => intro acc h; exact h
  | cons e es ih =>
    intro acc h
    exact ih (insertByStart e acc) (insertByStart_pairwise h)

theorem sortByStart_pairwise (l : List PEntity) :
    (sortByStart l).Pairwise (fun a b => a.startPosition ≤ b.startPosition) :=
  foldl_insertByStart_pairwise l [] (List.Pairwise.nil)

theorem mem_foldl_insertByStart {a : PEntity} :
    ∀ (l acc : List PEntity),
      a ∈ l.foldl (fun acc e => insertByStart e acc) acc ↔ a ∈ acc ∨ a ∈ l := by
  intro l
  induction l with
  | nil => intro acc; simp
  | cons e es ih =>
    intro acc
    rw [List.foldl_cons, ih (insertByStart e acc), mem_insertByStart]
    simp only [List.mem_cons]
    tauto

theorem mem_sortByStart {a : PEntity} {l : List PEntity} :
    a ∈ sortByStart l ↔ a ∈ l := by
  rw [sortByStart, mem_foldl_insertByStart]
  simp

theorem insertByStart_append {e : PEntity} :
    ∀ {l : List PEntity}, (∀ x ∈ l, x.startPosition ≤ e.startPosition) →
      insertByStart e l = l ++ [e] := by
  intro l
  induction l with
  | nil => intro _; rfl
  | cons x xs ih =>
    intro h
    have hx : x.startPosition ≤ e.startPosition := h x (List.mem_cons_self x xs)
    simp only [insertByStart, hx, if_true, List.cons_append, List.cons.injEq, true_and]
    exact ih (fun y hy => h y (List.mem_cons_of_mem x hy))

theorem foldl_insertByStart_sorted :
    ∀ (l acc : List PEntity),
      acc.Pairwise (fun a b => a.startPosition ≤ b.startPosition) →
      l.Pairwise (fun a b => a.startPosition ≤ b.startPosition) →
      (∀ a ∈ acc, ∀ b ∈ l, a.startPosition ≤ b.startPosition) →
      l.foldl (fun acc e => insertByStart e acc) acc = acc ++ l := by
  intro l
  induction l with
  | nil => intro acc _ _ _; simp
  | cons e es ih =>
    intro acc hacc hl hcross
    obtain ⟨he, hes⟩ := List.pairwise_cons.mp hl
    rw [List.foldl_cons]
    have hins : insertByStart e acc = acc ++ [e] :=
      insertByStart_append (fun x hx => hcross x hx e (List.mem_cons_self e es))
    rw [hins]
    have hacc' : (acc ++ [e]).Pairwise (fun a b => a.startPosition ≤ b.startPosition) := by
      rw [List.pairwise_append]
      refine ⟨hacc, by simp, ?_⟩
      intro a ha b hb
      rw [List.mem_singleton] at hb
      rw [hb]
      exact hcross a ha e (List.mem_cons_self e es)
    have hcross' : ∀ a ∈ acc ++ [e], ∀ b ∈ es, a.startPosition ≤ b.startPosition := by
      intro a ha b hb
      rcases List.mem_append.mp ha with ha | ha
      · exact hcross a ha b (List.mem_cons_of_mem e hb)
      · rw [List.mem_singleton] at ha
        subst ha
        exact he b hb
    rw [ih (acc ++ [e]) hacc' hes hcross']
    simp

theorem sortByStart_of_pairwise {l : List PEntity}
    (h : l.Pairwise (fun a b => a.startPosition ≤ b.startPosition)) :
    sortByStart l = l := by
  rw [sortByStart, foldl_insertByStart_sorted l [] List.Pairwise.nil h (by simp)]
  simp

theorem mergeScan_spec :
    ∀ (rest : List PEntity) (cur : PEntity),
      (cur :: rest).Pairwise (fun a b => a.startPosition ≤ b.startPosition) →
      (mergeScan cur rest).Sublist (cur :: rest) ∧
      (mergeScan cur rest).Chain' (fun a b => overlapB a b = false) ∧
      ∃ m t, mergeScan cur rest = m :: t ∧ cur.startPosition ≤ m.startPosition ∧
        (cur.endPosition < cur.startPosition → m = cur) := by
  intro rest
  induction rest with
  | nil =>
    intro cur _
    refine ⟨List.Sublist.refl _, by simp [mergeScan], cur, [], rfl, le_refl _, fun _ => rfl⟩
  | cons n rs ih =>
    intro cur hp
    obtain ⟨hcur, htail⟩ := List.pairwise_cons.mp hp
    obtain ⟨hn, hrs⟩ := List.pairwise_cons.mp htail
    have hcn : cur.startPosition ≤ n.startPosition := hcur n (List.mem_cons_self n rs)
    by_cases hov : overlapB cur n = true
    · -- overlap branch: the higher-confidence entity becomes current
      have hstep : mergeScan cur (n :: rs)
          = mergeScan (if cur.confidence < n.confidence then n else cur) rs := by
        simp only [mergeScan, hov, if_true]
      set cur' := if cur.confidence < n.confidence then n else cur with hcur'
      have hcc' : cur.startPosition ≤ cur'.startPosition := by
        rw [hcur']
        split
        · exact hcn
        · exact le_refl _
      have hp' : (cur' :: rs).Pairwise (fun a b => a.startPosition ≤ b.startPosition) := by
        refine List.pairwise_cons.mpr ⟨?_, hrs⟩
        intro b hb
        rw [hcur']
        split
        · exact hn b hb
        · exact hcur b (List.mem_cons_of_mem n hb)
      obtain ⟨hsub, hch, m, t, hout, hm, hmimp⟩ := ih cur' hp'
      have hsub' : (mergeScan cur' rs).Sublist (cur :: n :: rs) := by
        refine hsub.trans ?_
        rw [hcur']
        split
        · exact List.sublist_cons_self cur (n :: rs)
        · exact (List.sublist_cons_self n rs).cons_cons cur
      refine ⟨hstep ▸ hsub', hstep ▸ hch, m, t, hstep ▸ hout, le_trans hcc' hm, ?_⟩
      · intro hbad
        exfalso
        have h1 : n.startPosition ≤ cur.endPosition := by
          have := hov
          unfold overlapB at this
          exact (Bool.and_eq_true .. ▸ this).1 |> of_decide_eq_true
        omega
    · -- no overlap: cur is emitted
      have hstep : mergeScan cur (n :: rs) = cur :: mergeScan n rs := by
        simp only [mergeScan, hov, Bool.false_eq_true, if_false]
      obtain ⟨hsub, hch, m, t, hout, hm, hmimp⟩ := ih n htail
      have hnotov : overlapB cur n = false := by
        cases h : overlapB cur n
        · rfl
        · exact absurd h hov
      have hnoovm : overlapB cur m = false := by
        unfold overlapB at hnotov ⊢
        rw [Bool.and_eq_false_iff] at hnotov
        rcases hnotov with h1 | h2
        · -- n starts after cur ends, so does m
          rw [decide_eq_false_iff_not] at h1
          rw [Bool.and_eq_false_iff]
          left
          rw [decide_eq_false_iff_not]
          omega
        · -- degenerate: n.end < cur.start forces m = n
          rw [decide_eq_false_iff_not] at h2
          have hmn : m = n := hmimp (by omega)
          rw [hmn, Bool.and_eq_false_iff]
          right
          rw [decide_eq_false_iff_not]
          omega
      refine ⟨?_, ?_, cur, mergeScan n rs, hstep, le_refl _, fun _ => rfl⟩
      · rw [hstep]
        exact hsub.cons_cons cur
      · rw [hstep, hout]
        rw [hout] at hch
        exact List.chain'_cons.mpr ⟨hnoovm, hch⟩

theorem mergeScan_of_chain :
    ∀ (rest : List PEntity) (cur : PEntity),
      (cur :: rest).Chain' (fun a b => overlapB a b = false) →
      mergeScan cur rest = cur :: rest := by
  intro rest
  induction rest with
  | nil => intro cur _; rfl
  | cons n rs ih =>
    intro cur h
    obtain ⟨h1, h2⟩ := List.chain'_cons.mp h
    simp only [mergeScan, h1, Bool.false_eq_true, if_false]
    rw [ih n h2]

theorem mergeEntities_sorted (l : List PEntity) :
    (mergeEntities l).Pairwise (fun a b => a.startPosition ≤ b.startPosition) := by
  unfold mergeEntities
  cases h : sortByStart l with
  | nil => simp
  | cons x xs =>
    have hp : (x :: xs).Pairwise (fun a b => a.startPosition ≤ b.startPosition) :=
      h ▸ sortByStart_pairwise l
    exact List.Pairwise.sublist (mergeScan_spec xs x hp).1 hp

theorem mergeEntities_chain (l : List PEntity) :
    (mergeEntities l).Chain' (fun a b => overlapB a b = false) := by
  unfold mergeEntities
  cases h : sortByStart l with
  | nil => simp
  | cons x xs =>
    have hp : (x :: xs).Pairwise (fun a b => a.startPosition ≤ b.startPosition) :=
      h ▸ sortByStart_pairwise l
    exact (mergeScan_spec xs x hp).2.1

/-- C7: `_merge_entities` is idempotent — applied to its own output it returns
that output unchanged, for every input entity list (well-formed or not):
the output is sorted by start offset with no two consecutive entities
overlapping, so the second pass's stable sort and scan leave it intact. -/
theorem merge_entities_idempotent (l : List PEntity) :
    mergeEntities (mergeEntities l) = mergeEntities l := by
  have hsorted := mergeEntities_sorted l
  have hchain := mergeEntities_chain l
  cases h : mergeEntities l with
  | nil => rfl
  | cons x xs =>
    rw [h] at hsorted hchain
    show mergeEntities (x :: xs) = x :: xs
    unfold mergeEntities
    rw [sortByStart_of_pairwise hsorted]
    exact mergeScan_of_chain xs x hchain

theorem chain_sep_of_wellformed :
    ∀ (out : List PEntity),
      out.Chain' (fun a b => overlapB a b = false) →
      out.Pairwise (fun a b => a.startPosition ≤ b.startPosition) →
      (∀ e ∈ out, e.startPosition ≤ e.endPosition) →
      out.Chain' (fun a b => a.endPosition < b.startPosition) := by
  intro out
  induction out with
  | nil => intro _ _ _; simp
  | cons a t ih =>
    intro hch hp hwf
    cases t with
    | nil => simp
    | cons b t' =>
      obtain ⟨hab, hch'⟩ := List.chain'_cons.mp hch
      obtain ⟨hle, hp'⟩ := List.pairwise_cons.mp hp
      refine List.chain'_cons.mpr
        ⟨?_, ih hch' hp' (fun e he => hwf e (List.mem_cons_of_mem a he))⟩
      unfold overlapB at hab
      rw [Bool.and_eq_false_iff] at hab
      have hwb : b.startPosition ≤ b.endPosition := hwf b (by simp)
      have hab' : a.startPosition ≤ b.startPosition := hle b (by simp)
      rcases hab with h1 | h2
      · rw [decide_eq_false_iff_not] at h1; omega
      · rw [decide_eq_false_iff_not] at h2; omega

theorem pairwise_sep_of_chain :
    ∀ (out : List PEntity),
      out.Chain' (fun a b => a.endPosition < b.startPosition) →
      out.Pairwise (fun a b => a.startPosition ≤ b.startPosition) →
      out.Pairwise (fun a b => a.endPosition < b.startPosition) := by
  intro out
  induction out with
  | nil => intro _ _; exact List.Pairwise.nil
  | cons a t ih =>
    intro hch hp
    obtain ⟨hle, hp'⟩ := List.pairwise_cons.mp hp
    refine List.pairwise_cons.mpr ⟨?_, ih hch.tail hp'⟩
    intro b hb
    cases t with
    | nil => simp at hb
    | cons c t' =>
      have hac : a.endPosition < c.startPosition := (List.chain'_cons.mp hch).1
      rcases List.mem_cons.mp hb with hb | hb
      · rw [hb]; exact hac
      · have hcb : c.startPosition ≤ b.startPosition := (List.pairwise_cons.mp hp').1 b hb
        omega

/-- C9, amended: when every input entity is well-formed
(`start_position ≤ end_position`), the merged list is sorted by
`start_position` and no two of its entities overlap under the scan's
predicate.  (Without that hypothesis the property fails, see the
counterexample with an inverted-offset entity.) -/
theorem merge_entities_sorted_nonoverlapping_of_wellformed (l : List PEntity)
    (hwf : ∀ e ∈ l, e.startPosition ≤ e.endPosition) :
    (mergeEntities l).Pairwise (fun a b => a.startPosition ≤ b.startPosition) ∧
    (mergeEntities l).Pairwise (fun a b => overlapB a b = false) := by
  have hsorted := mergeEntities_sorted l
  have hchain := mergeEntities_chain l
  have hsub : ∀ e ∈ mergeEntities l, e ∈ l := by
    intro e he
    unfold mergeEntities at he
    cases h : sortByStart l with
    | nil => rw [h] at he; simp at he
    | cons x xs =>
      rw [h] at he
      have hp : (x :: xs).Pairwise (fun a b => a.startPosition ≤ b.startPosition) :=
        h ▸ sortByStart_pairwise l
      have hmem : e ∈ x :: xs := (mergeScan_spec xs x hp).1.subset he
      rw [← h] at hmem
      exact mem_sortByStart.mp hmem
  have hwf' : ∀ e ∈ mergeEntities l, e.startPosition ≤ e.endPosition :=
    fun e he => hwf e (hsub e he)
  have hsep := chain_sep_of_wellformed _ hchain hsorted hwf'
  have hpsep := pairwise_sep_of_chain _ hsep hsorted
  refine ⟨hsorted, hpsep.imp ?_⟩
  intro a b hab
  unfold overlapB
  rw [Bool.and_eq_false_iff]
  left
  rw [decide_eq_false_iff_not]
  omega

/-- C9, counterexample: with the inverted-offset entity `entInverted`
(`start 6 > end 2`) between `entWide` (`[5,10]`) and `entLate` (`[7,8]`), the
merge keeps all three, and the output's first and third entities overlap
under the scan's predicate, so the claim fails for arbitrary entity lists. -/
theorem merge_entities_overlap_counterexample :
    ¬ (mergeEntities [entWide, entInverted, entLate]).Pairwise
      (fun a b => overlapB a b = false) := by
  decide

theorem merge_entities_sorted_nonoverlapping_witness :
    ((∀ e ∈ entPair, e.startPosition ≤ e.endPosition) ∧
     (mergeEntities entPair).Pairwise (fun a b => a.startPosition ≤ b.startPosition) ∧
     (mergeEntities entPair).Pairwise (fun a b => overlapB a b = false)) := by
  have hwf : ∀ e ∈ entPair, e.startPosition ≤ e.endPosition := by decide
  exact ⟨hwf, merge_entities_sorted_nonoverlapping_of_wellformed entPair hwf⟩

theorem listContains_nonempty :
    ∀ (h n : List Char), listContains n h = true → n ≠ [] → h ≠ [] := by
  intro h n hc hn
  cases h with
  | nil =>
    simp only [listContains, List.isEmpty_iff] at hc
    exact absurd hc hn
  | cons c t => simp

/-- C8: every entity kept by `_validate_entities` satisfies
`0 ≤ start_position < end_position ≤ len(text)`, and the slice
`text[start:end]` contains the entity's raw value case-insensitively:
the validation keeps an entity only when its non-empty lowercased value is a
substring of the lowercased slice, which forces the slice (hence the offset
range) to be non-empty. -/
theorem validated_entities_offsets_invariant (text : List Char) (entities : List PEntity)
    (e : PEntity) (h : e ∈ validateEntities entities text) :
    0 ≤ e.startPosition ∧ e.startPosition < e.endPosition ∧
    e.endPosition ≤ text.length ∧
    listContains (lowerL e.entityValue.toList)
      (lowerL (pySlice text e.startPosition e.endPosition)) = true := by
  have hv : validEntityB text e = true := (List.mem_filter.mp h).2
  unfold validEntityB at hv
  repeat rw [Bool.and_eq_true] at hv
  obtain ⟨⟨⟨⟨⟨h1, h2⟩, h3⟩, h4⟩, h5⟩, h6⟩ := hv
  have hne : e.entityValue.toList ≠ [] := by
    intro hnil
    rw [hnil] at h1
    simp at h1
  have hlne : lowerL e.entityValue.toList ≠ [] := by
    unfold lowerL
    intro hh
    exact hne (List.map_eq_nil_iff.mp hh)
  have hsne : lowerL (pySlice text e.startPosition e.endPosition) ≠ [] :=
    listContains_nonempty _ _ h6 hlne
  have hslice : pySlice text e.startPosition e.endPosition ≠ [] := by
    intro hh
    rw [hh] at hsne
    exact hsne rfl
  have hend : e.endPosition ≤ text.length := of_decide_eq_true h5
  have hlen : 0 < (pySlice text e.startPosition e.endPosition).length :=
    List.length_pos.mpr hslice
  unfold pySlice at hlen
  rw [List.length_drop, List.length_take, Nat.min_eq_left hend] at hlen
  exact ⟨Nat.zero_le _, by omega, hend, h6⟩

theorem validated_entities_offsets_invariant_witness :
    entAB ∈ validateEntities [entAB] "abc".toList ∧
    (0 ≤ entAB.startPosition ∧ entAB.startPosition < entAB.endPosition ∧
     entAB.endPosition ≤ "abc".toList.length ∧
     listContains (lowerL entAB.entityValue.toList)
       (lowerL (pySlice "abc".toList entAB.startPosition entAB.endPosition)) = true) := by
  have hv : validEntityB "abc".toList entAB = true := by
    simp only [validEntityB, Bool.and_eq_true]
    refine ⟨⟨⟨⟨⟨by decide, by decide⟩, ?_⟩, by decide⟩, by decide⟩, by decide⟩
    · rw [Bool.not_eq_true', decide_eq_false_iff_not]
      norm_num [entAB]
  have hmem : entAB ∈ validateEntities [entAB] "abc".toList :=
    List.mem_filter.mpr ⟨List.mem_cons_self _ _, hv⟩
  exact ⟨hmem, validated_entities_offsets_invariant "abc".toList [entAB] entAB hmem⟩

/-- C10: `extract_entities` is total at its public interface — it is a plain
function into entity lists; for empty or whitespace-only input it returns
`[]`, and when the extraction passes inside its `try` block raise (the
`.error` outcome) the `except` handler returns `[]`. -/
theorem extract_entities_total_empty_and_error (text : List Char)
    (po : ExtractionOutcome) (se : Option (List PEntity)) :
    ((text.isEmpty || (stripC text).isEmpty) = true → extractEntities text po se = []) ∧
    (∀ msg, po = ExtractionOutcome.error msg → extractEntities text po se = []) := by
  constructor
  · intro h
    unfold extractEntities
    rw [if_pos h]
  · intro msg hpo
    subst hpo
    unfold extractEntities
    by_cases h : (text.isEmpty || (stripC text).isEmpty) = true
    · rw [if_pos h]
    · rw [if_neg h]

theorem extract_entities_total_witness :
    extractEntities "   ".toList (.ok [entReg]) none = [] ∧
    extractEntities "abc".toList (.error "value error") none = [] :=
  ⟨(extract_entities_total_empty_and_error "   ".toList (.ok [entReg]) none).1 (by decide),
   (extract_entities_total_empty_and_error "abc".toList (.error "value error") none).2
     "value error" rfl⟩

end Compliance
